import Mathlib

/-!
Verification of the SCRAM Boolean-graph preprocessor (preprocessor.cc)
against its natural-language specification.

The preprocessor's own routines are translated from `preprocessor.cc`.
The Boolean-graph node primitives (`boolean_graph`) are not part of the
analysed sources; where such a primitive is required it is modelled from
the specification document and marked as such in its doc comment.
-/

namespace scram

/-- Gate operator kinds, mirroring the `Operator` enum of the source
(`kAndGate`, `kOrGate`, `kAtleastGate`, `kXorGate`, `kNotGate`,
`kNandGate`, `kNorGate`, `kNullGate`). -/
inductive Operator where
  | kAndGate
  | kOrGate
  | kAtleastGate
  | kXorGate
  | kNotGate
  | kNandGate
  | kNorGate
  | kNullGate
  deriving DecidableEq, Repr

/-- Gate states, mirroring the `State` enum of the source
(`kNormalState`, `kNullState`, `kUnityState`). -/
inductive State where
  | kNormalState
  | kNullState
  | kUnityState
  deriving DecidableEq, Repr

open Operator State

/-- The part of a gate (`IGate`) observed and mutated by the
constant-argument absorption routines: its operator kind, its constant
state, its vote number (for ATLEAST gates), and its set of signed
argument indices (positive = plain, negative = complemented).  The
argument set is kept as the sorted list of signed indices, matching the
source's `std::set<int> args_`. -/
structure IGate where
  type : Operator
  state : State
  vote : Nat
  args : List Int
  deriving DecidableEq, Repr

/-- Modelled from the spec: `erase_arg(parent, signed_index)` removes the
signed index from the argument set (`§4.A`).  Parent back-reference
bookkeeping is outside this gate-local model. -/
def IGate.eraseArg (g : IGate) (arg : Int) : IGate :=
  { g with args := g.args.erase arg }

/-- Modelled from the spec: `make_unity()` collapses the gate to the
constant True state (`§4.A`). -/
def IGate.makeUnity (g : IGate) : IGate :=
  { g with state := kUnityState }

/-- Modelled from the spec: `nullify()` collapses the gate to the
constant False state (`§4.A`). -/
def IGate.nullify (g : IGate) : IGate :=
  { g with state := kNullState }

/-- Translation of `Preprocessor::RemoveConstantArg`: erase the argument
and, if a single argument remains, rewrite the operator (XOR/OR/AND
become NULL; NOR/NAND become NOT). -/
def removeConstantArg (gate : IGate) (arg : Int) : IGate :=
  let gate := gate.eraseArg arg
  if gate.args.length = 1 then
    match gate.type with
    | kXorGate | kOrGate | kAndGate => { gate with type := kNullGate }
    | kNorGate | kNandGate => { gate with type := kNotGate }
    | _ => gate
  else gate

/-- Translation of `Preprocessor::ProcessTrueArg`: absorption of an
argument that is constant True (after sign adjustment). -/
def processTrueArg (gate : IGate) (arg : Int) : IGate :=
  match gate.type with
  | kNullGate | kOrGate => gate.makeUnity
  | kNandGate | kAndGate => removeConstantArg gate arg
  | kNorGate | kNotGate => gate.nullify
  | kXorGate =>
      let gate := gate.eraseArg arg
      { gate with type := kNotGate }
  | kAtleastGate =>
      let gate := gate.eraseArg arg
      let k := gate.vote - 1
      let gate := { gate with vote := k }
      if k = 1 then { gate with type := kOrGate } else gate

/-- Translation of `Preprocessor::ProcessFalseArg`: absorption of an
argument that is constant False (after sign adjustment). -/
def processFalseArg (gate : IGate) (arg : Int) : IGate :=
  match gate.type with
  | kNorGate | kXorGate | kOrGate => removeConstantArg gate arg
  | kNullGate | kAndGate => gate.nullify
  | kNandGate | kNotGate => gate.makeUnity
  | kAtleastGate =>
      let gate := gate.eraseArg arg
      if gate.vote = gate.args.length then { gate with type := kAndGate }
      else gate

/-- Translation of `Preprocessor::ProcessConstantArg`: the sign of the
argument is applied to the constant value first, then the True or False
absorption runs. -/
def processConstantArg (gate : IGate) (arg : Int) (state : Bool) : IGate :=
  let state := if arg < 0 then !state else state
  if state then processTrueArg gate arg else processFalseArg gate arg

/-- The FALSE-argument absorption table exactly as claim C2 states it:
a NULL or OR parent removes the argument (the source's argument-removal
routine `RemoveConstantArg`); a NAND or AND parent collapses to the Null
state; a NOR or NOT parent collapses to the Unity state. -/
def claimC2Table : Prop :=
  ∀ (g : IGate) (a : Int),
    ((g.type = kNullGate ∨ g.type = kOrGate) →
      processFalseArg g a = removeConstantArg g a) ∧
    ((g.type = kNandGate ∨ g.type = kAndGate) →
      processFalseArg g a = g.nullify) ∧
    ((g.type = kNorGate ∨ g.type = kNotGate) →
      processFalseArg g a = g.makeUnity)

/-- C2 (counterexample): the table stated by the claim is false on the
code.  At the concrete gate `NULL(5)` with a FALSE argument `5`, the
source's `ProcessFalseArg` collapses the gate to the Null state
(`kNullGate` shares the `Nullify` branch with `kAndGate`), whereas the
claim's table says a NULL parent removes the argument. -/
theorem C2_counterexample : ¬ claimC2Table := by
  intro h
  have h5 := (h ⟨kNullGate, kNormalState, 0, [5]⟩ 5).1 (Or.inl rfl)
  revert h5
  decide

/-- C2 (amended): the FALSE-argument absorption per parent kind as the
code implements it: a NOR, XOR, or OR parent removes the argument
(via `RemoveConstantArg`); a NULL or AND parent collapses to the Null
state; a NAND or NOT parent collapses to the Unity state. -/
theorem C2_amended (g : IGate) (a : Int) :
    ((g.type = kNorGate ∨ g.type = kXorGate ∨ g.type = kOrGate) →
      processFalseArg g a = removeConstantArg g a) ∧
    ((g.type = kNullGate ∨ g.type = kAndGate) →
      processFalseArg g a = g.nullify) ∧
    ((g.type = kNandGate ∨ g.type = kNotGate) →
      processFalseArg g a = g.makeUnity) := by
  obtain ⟨t, s, v, args⟩ := g
  cases t <;> simp [processFalseArg]

/-- Witness for C2_amended at concrete gates of each kind. -/
theorem C2_amended_witness :
    processFalseArg ⟨kOrGate, kNormalState, 0, [3, 5]⟩ 3 =
      removeConstantArg ⟨kOrGate, kNormalState, 0, [3, 5]⟩ 3 ∧
    processFalseArg ⟨kAndGate, kNormalState, 0, [3, 5]⟩ 3 =
      IGate.nullify ⟨kAndGate, kNormalState, 0, [3, 5]⟩ ∧
    processFalseArg ⟨kNotGate, kNormalState, 0, [3]⟩ 3 =
      IGate.makeUnity ⟨kNotGate, kNormalState, 0, [3]⟩ :=
  ⟨(C2_amended ⟨kOrGate, kNormalState, 0, [3, 5]⟩ 3).1 (Or.inr (Or.inr rfl)),
   (C2_amended ⟨kAndGate, kNormalState, 0, [3, 5]⟩ 3).2.1 (Or.inr rfl),
   (C2_amended ⟨kNotGate, kNormalState, 0, [3]⟩ 3).2.2 (Or.inr rfl)⟩

/-- C4: `ProcessConstantArg` on an ATLEAST gate realizes exactly the
break-after-every-case table semantics.  For a TRUE argument the
argument is erased and the vote number `k` is decremented, the kind
switching to OR when `k` reaches 1; for a FALSE argument the argument is
erased, the kind switching to AND when `k` equals the remaining argument
count.  No branch of any other operator kind contributes: the state,
and for FALSE the vote number, are untouched. -/
theorem C4_atleast_cases (g : IGate) (a : Int) (h : g.type = kAtleastGate) :
    ((processTrueArg g a).args = g.args.erase a ∧
     (processTrueArg g a).vote = g.vote - 1 ∧
     (processTrueArg g a).state = g.state ∧
     (processTrueArg g a).type =
       (if g.vote - 1 = 1 then kOrGate else kAtleastGate)) ∧
    ((processFalseArg g a).args = g.args.erase a ∧
     (processFalseArg g a).vote = g.vote ∧
     (processFalseArg g a).state = g.state ∧
     (processFalseArg g a).type =
       (if g.vote = (g.args.erase a).length then kAndGate
        else kAtleastGate)) := by
  obtain ⟨t, s, v, args⟩ := g
  subst h
  refine ⟨⟨?_, ?_, ?_, ?_⟩, ⟨?_, ?_, ?_, ?_⟩⟩ <;>
    · simp only [processTrueArg, processFalseArg, IGate.eraseArg]
      split <;> simp [*]

/-- Witness for C4 at the concrete gate ATLEAST(2; 3,5,7): a TRUE
argument 3 yields OR(5,7); a FALSE argument 3 yields AND(5,7). -/
theorem C4_atleast_cases_witness :
    (processTrueArg ⟨kAtleastGate, kNormalState, 2, [3, 5, 7]⟩ 3).type =
      (if 2 - 1 = 1 then kOrGate else kAtleastGate) ∧
    (processFalseArg ⟨kAtleastGate, kNormalState, 2, [3, 5, 7]⟩ 3).type =
      (if 2 = ([3, 5, 7].erase (3 : Int)).length then kAndGate
       else kAtleastGate) :=
  ⟨((C4_atleast_cases ⟨kAtleastGate, kNormalState, 2, [3, 5, 7]⟩ 3 rfl).1).2.2.2,
   ((C4_atleast_cases ⟨kAtleastGate, kNormalState, 2, [3, 5, 7]⟩ 3 rfl).2).2.2.2⟩

/-- Expression trees produced by the gate normalizers.  A leaf is a
signed node index (positive = plain reference, negative = complemented
reference); an inner node is a gate of a given operator kind and vote
number over a list of sub-expressions. -/
inductive NExpr where
  | leaf (lit : Int)
  | gate (op : Operator) (vote : Nat) (args : List NExpr)
  deriving Repr

/-- Value of a signed node reference under an assignment of truth values
to node indices: a negative index denotes the complement. -/
def litVal (σ : Nat → Bool) (i : Int) : Bool :=
  if i < 0 then !(σ i.natAbs) else σ i.natAbs

/-- Number of `true` entries in a list of Booleans. -/
def countTrue : List Bool → Nat
  | [] => 0
  | b :: rest => (if b then 1 else 0) + countTrue rest

/-- Modelled from the spec: truth-table semantics of each gate kind over
the values of its arguments (§3, glossary: AND/OR/NAND/NOR/NOT/NULL/XOR,
and ATLEAST(k; …) true iff at least `k` arguments are true). -/
def gateEval (op : Operator) (vote : Nat) (vals : List Bool) : Bool :=
  match op with
  | kAndGate => vals.all id
  | kOrGate => vals.any id
  | kNandGate => !(vals.all id)
  | kNorGate => !(vals.any id)
  | kNotGate => !(vals.all id)
  | kNullGate => vals.all id
  | kXorGate => decide (countTrue vals % 2 = 1)
  | kAtleastGate => decide (vote ≤ countTrue vals)

/-- Evaluation of a normalizer expression tree under an assignment. -/
def evalN (σ : Nat → Bool) : NExpr → Bool
  | .leaf i => litVal σ i
  | .gate op vote args => gateEval op vote (args.attach.map fun a => evalN σ a.1)
termination_by e => sizeOf e
decreasing_by
  have := List.sizeOf_lt_of_mem a.2
  simp only [NExpr.gate.sizeOf_spec]
  omega

theorem evalN_leaf (σ : Nat → Bool) (i : Int) :
    evalN σ (.leaf i) = litVal σ i := by
  simp [evalN]

theorem evalN_gate (σ : Nat → Bool) (op : Operator) (vote : Nat)
    (args : List NExpr) :
    evalN σ (.gate op vote args) = gateEval op vote (args.map (evalN σ)) := by
  rw [evalN]
  congr 1
  exact List.attach_map_val args (evalN σ)

theorem gateEval_and (v : Nat) (vals : List Bool) :
    gateEval kAndGate v vals = vals.all id := rfl

theorem gateEval_or (v : Nat) (vals : List Bool) :
    gateEval kOrGate v vals = vals.any id := rfl

theorem gateEval_xor (v : Nat) (vals : List Bool) :
    gateEval kXorGate v vals = decide (countTrue vals % 2 = 1) := rfl

theorem gateEval_atleast (v : Nat) (vals : List Bool) :
    gateEval kAtleastGate v vals = decide (v ≤ countTrue vals) := rfl

theorem map_leaf_eval (σ : Nat → Bool) (l : List Int) :
    (l.map NExpr.leaf).map (evalN σ) = l.map (litVal σ) := by
  induction l with
  | nil => rfl
  | cons x t ih => simp only [List.map_cons, evalN_leaf, ih]

/-- Modelled from the spec: `invert_arg(parent, signed_index)` flips the
sign of the given argument in-place (§4.A); here at the level of a local
signed-argument list. -/
def listInvertArg (args : List Int) (a : Int) : List Int :=
  args.map fun x => if x = a then -x else x

/-- Translation of `Preprocessor::NormalizeXorGate` on a two-argument
XOR gate with signed arguments `a` then `b` (in the source's
`std::set<int>` order): the first fresh AND gate receives `a` shared and
`b` shared-then-inverted; the second receives `a` shared-then-inverted
and `b` shared; the gate itself becomes OR over the two fresh gates. -/
def normalizeXorGate (a b : Int) : NExpr :=
  let gateOne := listInvertArg [a, b] b
  let gateTwo := listInvertArg [a] a ++ [b]
  .gate kOrGate 0
    [.gate kAndGate 0 (gateOne.map .leaf),
     .gate kAndGate 0 (gateTwo.map .leaf)]

/-- Translation of `Preprocessor::NormalizeAtleastGate`: an
ATLEAST(k; x1..xn) gate with k = n becomes AND; with k = 1 it becomes
OR; otherwise it becomes OR(AND(x1, ATLEAST(k-1; x2..xn)),
ATLEAST(k; x2..xn)), and the two new ATLEAST children are themselves
normalized recursively. -/
def normalizeAtleastGate : Nat → List Int → NExpr
  | k, args =>
    if args.length = k then .gate kAndGate k (args.map .leaf)
    else if k = 1 then .gate kOrGate k (args.map .leaf)
    else
      match args with
      | [] => .gate kOrGate k []
      | x :: rest =>
          .gate kOrGate k
            [.gate kAndGate 0 [.leaf x, normalizeAtleastGate (k - 1) rest],
             normalizeAtleastGate k rest]

theorem countTrue_le_length (l : List Bool) : countTrue l ≤ l.length := by
  induction l with
  | nil => simp [countTrue]
  | cons b rest ih => cases b <;> simp [countTrue] <;> omega

theorem all_id_eq_count (l : List Bool) :
    l.all id = decide (l.length ≤ countTrue l) := by
  induction l with
  | nil => simp [countTrue]
  | cons b rest ih =>
      have h := countTrue_le_length rest
      cases b <;> simp [countTrue, ih] <;> omega

theorem any_id_eq_count (l : List Bool) :
    l.any id = decide (1 ≤ countTrue l) := by
  induction l with
  | nil => simp [countTrue]
  | cons b rest ih => cases b <;> simp [countTrue, ih]

/-- The value of an inverted signed reference is the complement
(nonzero indices; node indices are positive by the graph invariants). -/
theorem litVal_neg (σ : Nat → Bool) (i : Int) (h : i ≠ 0) :
    litVal σ (-i) = !(litVal σ i) := by
  by_cases hi : i < 0
  · have h1 : ¬(-i < 0) := by omega
    simp [litVal, hi, h1, Int.natAbs_neg]
  · have h2 : -i < 0 := by omega
    simp [litVal, hi, h2, Int.natAbs_neg]

/-- Semantic correctness of the recursive ATLEAST normalization. -/
theorem normalizeAtleastGate_eval (σ : Nat → Bool) :
    ∀ (args : List Int) (k : Nat), 1 ≤ k → k ≤ args.length →
      evalN σ (normalizeAtleastGate k args)
        = gateEval kAtleastGate k (args.map (litVal σ)) := by
  intro args
  induction args with
  | nil => intro k h1 h2; simp at h2; omega
  | cons x rest ih =>
      intro k h1 h2
      by_cases hl : (x :: rest).length = k
      · rw [normalizeAtleastGate, if_pos hl, evalN_gate, map_leaf_eval,
          gateEval_and, gateEval_atleast, all_id_eq_count]
        have hc := countTrue_le_length ((x :: rest).map (litVal σ))
        have hlen : ((x :: rest).map (litVal σ)).length = k := by
          simpa using hl
        rw [hlen]
      · by_cases hk : k = 1
        · rw [normalizeAtleastGate, if_neg hl, if_pos hk, evalN_gate,
            map_leaf_eval, gateEval_or, gateEval_atleast, any_id_eq_count, hk]
        · have hr : k ≤ rest.length := by
            simp only [List.length_cons] at h2 hl
            omega
          rw [normalizeAtleastGate, if_neg hl, if_neg hk, evalN_gate]
          simp only [List.map_cons, List.map_nil, evalN_gate, evalN_leaf]
          rw [ih (k - 1) (by omega) (by omega), ih k (by omega) hr]
          rw [gateEval_or, gateEval_and, gateEval_atleast, gateEval_atleast,
            gateEval_atleast]
          simp only [List.map_cons, List.all_cons, List.all_nil,
            List.any_cons, List.any_nil, countTrue, id]
          cases hx : litVal σ x <;>
            · by_cases hA : k - 1 ≤ countTrue (rest.map (litVal σ)) <;>
                by_cases hB : k ≤ countTrue (rest.map (litVal σ)) <;>
                  simp [hA, hB] <;> omega

/-- C6: full normalization of ATLEAST(k; x1..xn) (for well-formed vote
numbers 1 ≤ k ≤ n) yields a graph-equivalent of the recursive top-down
decomposition OR(AND(x1, ATLEAST(k-1; x2..xn)), ATLEAST(k; x2..xn)):
the result evaluates exactly as the k-of-n gate under every assignment,
the base case k = n rewrites the kind to AND, the base case k = 1
rewrites it to OR, and in the recursive case the gate becomes an OR of a
fresh AND(x1, ·) gate and the two recursively normalized ATLEAST
children. -/
theorem C6_atleast_normalization (σ : Nat → Bool) (k : Nat)
    (args : List Int) (h1 : 1 ≤ k) (h2 : k ≤ args.length) :
    evalN σ (normalizeAtleastGate k args)
      = gateEval kAtleastGate k (args.map (litVal σ)) ∧
    (args.length = k →
      normalizeAtleastGate k args = .gate kAndGate k (args.map .leaf)) ∧
    (k = 1 → args.length ≠ k →
      normalizeAtleastGate k args = .gate kOrGate k (args.map .leaf)) ∧
    (∀ x rest, args = x :: rest → k ≠ 1 → args.length ≠ k →
      normalizeAtleastGate k args =
        .gate kOrGate k
          [.gate kAndGate 0 [.leaf x, normalizeAtleastGate (k - 1) rest],
           normalizeAtleastGate k rest]) := by
  refine ⟨normalizeAtleastGate_eval σ args k h1 h2, ?_, ?_, ?_⟩
  · intro hl
    cases args with
    | nil => rw [normalizeAtleastGate, if_pos hl]
    | cons x rest => rw [normalizeAtleastGate, if_pos hl]
  · intro hk hl
    cases args with
    | nil => rw [normalizeAtleastGate, if_neg hl, if_pos hk]
    | cons x rest => rw [normalizeAtleastGate, if_neg hl, if_pos hk]
  · intro x rest hargs hk hl
    subst hargs
    rw [normalizeAtleastGate, if_neg hl, if_neg hk]

/-- Witness for C6 at ATLEAST(2; 1,2,3) under the assignment making
exactly nodes 2 and 3 true. -/
theorem C6_atleast_normalization_witness :
    evalN (fun n => decide (2 ≤ n)) (normalizeAtleastGate 2 [1, 2, 3])
      = gateEval kAtleastGate 2
          ([1, 2, 3].map (litVal (fun n => decide (2 ≤ n)))) :=
  (C6_atleast_normalization (fun n => decide (2 ≤ n)) 2 [1, 2, 3]
    (by decide) (by decide)).1

/-- C7: full normalization rewrites a two-argument XOR(a,b) gate into
OR(AND(a, ¬b), AND(¬a, b)) over two freshly created AND gates keeping
the original signed arguments, and the result evaluates exactly as XOR
under every assignment (for distinct nonzero signed indices). -/
theorem C7_xor_normalization (σ : Nat → Bool) (a b : Int)
    (ha : a ≠ 0) (hb : b ≠ 0) (hab : a ≠ b) :
    normalizeXorGate a b =
      .gate kOrGate 0
        [.gate kAndGate 0 [.leaf a, .leaf (-b)],
         .gate kAndGate 0 [.leaf (-a), .leaf b]] ∧
    evalN σ (normalizeXorGate a b)
      = gateEval kXorGate 0 [litVal σ a, litVal σ b] := by
  have hform : normalizeXorGate a b =
      .gate kOrGate 0
        [.gate kAndGate 0 [.leaf a, .leaf (-b)],
         .gate kAndGate 0 [.leaf (-a), .leaf b]] := by
    simp [normalizeXorGate, listInvertArg, hab]
  refine ⟨hform, ?_⟩
  rw [hform, evalN_gate]
  simp only [List.map_cons, List.map_nil, evalN_gate, evalN_leaf]
  rw [litVal_neg σ a ha, litVal_neg σ b hb]
  rw [gateEval_or, gateEval_and, gateEval_and, gateEval_xor]
  cases litVal σ a <;> cases litVal σ b <;> rfl

/-- Witness for C7 at XOR(1, 2) under the assignment making node 1 true
and node 2 false. -/
theorem C7_xor_normalization_witness :
    normalizeXorGate 1 2 =
      .gate kOrGate 0
        [.gate kAndGate 0 [.leaf 1, .leaf (-2)],
         .gate kAndGate 0 [.leaf (-1), .leaf 2]] :=
  (C7_xor_normalization (fun n => decide (n = 1)) 1 2
    (by decide) (by decide) (by decide)).1

/-- A gate of the Boolean graph with its sub-structure unfolded: operator
kind, constant state, vote number, gate arguments (signed edge paired
with the child gate) and variable arguments (signed indices).  Sharing
in the acyclic graph is modelled by tree unfolding. -/
inductive BGate where
  | mk (type : Operator) (state : State) (vote : Nat)
       (gargs : List (Int × BGate)) (vargs : List Int)

/-- Operator kind of a gate. -/
def BGate.type : BGate → Operator
  | .mk t _ _ _ _ => t

/-- Constant state of a gate. -/
def BGate.state : BGate → State
  | .mk _ s _ _ _ => s

/-- Gate arguments (signed edge, child gate). -/
def BGate.gargs : BGate → List (Int × BGate)
  | .mk _ _ _ g _ => g

/-- Variable arguments (signed indices). -/
def BGate.vargs : BGate → List Int
  | .mk _ _ _ _ v => v

/-- Vote number of a gate. -/
def BGate.vote : BGate → Nat
  | .mk _ _ v _ _ => v

/-- Size measure on gate trees. -/
def bsize : BGate → Nat
  | .mk _ _ _ gargs _ => 1 + ((gargs.attach.map fun p => bsize p.1.2).sum)
termination_by g => sizeOf g
decreasing_by
  have h1 := List.sizeOf_lt_of_mem p.2
  have h2 : sizeOf p.1.2 < sizeOf p.1 := by
    obtain ⟨a, b⟩ := p.1
    simp
  simp only [BGate.mk.sizeOf_spec]
  omega

theorem bsize_eq (t : Operator) (s : State) (v : Nat)
    (gargs : List (Int × BGate)) (vargs : List Int) :
    bsize (.mk t s v gargs vargs) = 1 + (gargs.map fun p => bsize p.2).sum := by
  rw [bsize]
  congr 1
  exact congrArg List.sum (List.attach_map_val gargs fun p => bsize p.2)

/-- Modelled from the spec: `invert_args()` flips the signs of all of a
gate's arguments, used when propagating a complement (§4.A). -/
def BGate.invertArgs : BGate → BGate
  | .mk t s v gargs vargs =>
      .mk t s v (gargs.map fun p => (-p.1, p.2)) (vargs.map fun i => -i)

/-- The complement gate built by `Preprocessor::PropagateComplements`
for a complemented argument gate: the operator kind becomes its dual
(OR becomes AND and AND becomes OR; the source asserts no other kind
occurs here) and all arguments are inverted. -/
def complementOf (g : BGate) : BGate :=
  let dual : Operator := if g.type = kOrGate then kAndGate else kOrGate
  ((BGate.mk dual g.state g.vote g.gargs g.vargs)).invertArgs

theorem bsize_invertArgs (g : BGate) : bsize g.invertArgs = bsize g := by
  obtain ⟨t, s, v, gargs, vargs⟩ := g
  simp only [BGate.invertArgs, bsize_eq, List.map_map]
  rfl

theorem bsize_complementOf (g : BGate) : bsize (complementOf g) = bsize g := by
  obtain ⟨t, s, v, gargs, vargs⟩ := g
  simp only [complementOf, BGate.invertArgs, bsize_eq, List.map_map,
    BGate.gargs, BGate.vargs]
  rfl

theorem bsize_lt_of_mem {q : Int × BGate} {t : Operator} {s : State}
    {v : Nat} {gargs : List (Int × BGate)} {vargs : List Int}
    (h : q ∈ gargs) : bsize q.2 < bsize (BGate.mk t s v gargs vargs) := by
  rw [bsize_eq]
  have hle : bsize q.2 ≤ (gargs.map fun r => bsize r.2).sum :=
    List.le_sum_of_mem (List.mem_map.mpr ⟨q, h, rfl⟩)
  omega

/-- Translation of `Preprocessor::PropagateComplements` on the unfolded
graph: for each gate argument held with a negative sign, the argument is
replaced by a positive reference to the dual-kind gate with inverted
arguments, and propagation continues below; positively held gate
arguments are only recursed into.  Variable arguments keep their
signs. -/
def propagateComplements (g : BGate) : BGate :=
  match g with
  | .mk t s v gargs vargs =>
      .mk t s v
        (gargs.attach.map fun p =>
          if p.1.1 < 0 then (-p.1.1, propagateComplements (complementOf p.1.2))
          else (p.1.1, propagateComplements p.1.2))
        vargs
termination_by bsize g
decreasing_by
  · rw [bsize_complementOf]
    exact bsize_lt_of_mem p.2
  · exact bsize_lt_of_mem p.2

/-- Checks that no gate argument anywhere in the tree is held with a
negative sign. -/
def noNegGateArgs : BGate → Bool
  | .mk _ _ _ gargs _ =>
      gargs.attach.all fun p => decide (0 ≤ p.1.1) && noNegGateArgs p.1.2
termination_by g => sizeOf g
decreasing_by
  have h1 := List.sizeOf_lt_of_mem p.2
  have h2 : sizeOf p.1.2 < sizeOf p.1 := by
    obtain ⟨a, b⟩ := p.1
    simp
  simp only [BGate.mk.sizeOf_spec]
  omega

theorem attach_all_eq {α : Type} (l : List α) (f : α → Bool) :
    (l.attach.all fun p => f p.1) = l.all f := by
  rw [Bool.eq_iff_iff, List.all_eq_true, List.all_eq_true]
  exact ⟨fun h p hp => h ⟨p, hp⟩ (List.mem_attach _ _), fun h p _ => h p.1 p.2⟩

theorem noNegGateArgs_eq (t : Operator) (s : State) (v : Nat)
    (gargs : List (Int × BGate)) (vargs : List Int) :
    noNegGateArgs (.mk t s v gargs vargs)
      = gargs.all fun p => decide (0 ≤ p.1) && noNegGateArgs p.2 := by
  rw [noNegGateArgs]
  exact attach_all_eq gargs fun p => decide (0 ≤ p.1) && noNegGateArgs p.2

theorem bsize_pos (g : BGate) : 1 ≤ bsize g := by
  obtain ⟨t, s, v, gargs, vargs⟩ := g
  rw [bsize_eq]
  omega

theorem propagateComplements_noNeg_aux :
    ∀ (n : Nat) (g : BGate), bsize g ≤ n →
      noNegGateArgs (propagateComplements g) = true := by
  intro n
  induction n with
  | zero => intro g h; have := bsize_pos g; omega
  | succ n ih =>
      intro g h
      obtain ⟨t, s, v, gargs, vargs⟩ := g
      rw [bsize_eq] at h
      rw [propagateComplements, noNegGateArgs_eq, List.all_eq_true]
      intro q hq
      obtain ⟨p, hp, rfl⟩ := List.mem_map.mp hq
      have hsub : bsize p.1.2 ≤ (gargs.map fun r => bsize r.2).sum :=
        List.le_sum_of_mem (List.mem_map.mpr ⟨p.1, p.2, rfl⟩)
      by_cases hneg : p.1.1 < 0
      · simp only [hneg, if_pos]
        rw [Bool.and_eq_true]
        refine ⟨by simp; omega, ?_⟩
        apply ih
        rw [bsize_complementOf]
        omega
      · simp only [hneg, if_neg, ite_false]
        rw [Bool.and_eq_true]
        refine ⟨by simp; omega, ?_⟩
        apply ih
        omega

/-- C10: after `PropagateComplements` completes, no gate in the graph
holds a gate argument with a negative sign: every negated gate argument
has been replaced by a positive reference to a dual-kind gate, so
negations remain only on variable arguments. -/
theorem C10_no_negative_gate_args (g : BGate) :
    noNegGateArgs (propagateComplements g) = true :=
  propagateComplements_noNeg_aux (bsize g) g le_rfl

/-- Preprocessor state observed by the phase orchestration: the graph's
root gate, the `root_sign_` scalar of the preprocessor, and the graph's
`normal_` and `coherent_` flags. -/
structure PState where
  root : BGate
  rootSign : Int
  normalFlag : Bool
  coherentFlag : Bool

/-- Translation of `Preprocessor::CheckRootGate`: if the root gate has
become constant, a negative root sign is folded into a fresh NULL-kind
root carrying the inverted constant, and `true` (no more processing) is
returned; a NULL-kind root with a gate argument is replaced by that
argument with the sign folded into the root sign, processing continuing;
a NULL-kind root with a single variable argument absorbs a negative root
sign by inverting its arguments, and processing stops. -/
def checkRootGate (st : PState) : Bool × PState :=
  if st.root.state ≠ kNormalState then
    if st.rootSign < 0 then
      (true, { st with
               root := .mk kNullGate
                 (if st.root.state = kNullState then kUnityState
                  else kNullState) 0 [] []
               rootSign := 1 })
    else (true, st)
  else if st.root.type = kNullGate then
    match st.root.gargs with
    | (i, g) :: _ =>
        (false, { st with
                  root := g
                  rootSign := st.rootSign * (if i > 0 then 1 else -1) })
    | [] =>
        if st.rootSign < 0 then
          (true, { st with root := st.root.invertArgs, rootSign := 1 })
        else (true, { st with rootSign := 1 })
  else (false, st)

/-- The five phases invoked by `ProcessFaultTree`, taken as abstract
transformations of the preprocessor state; the orchestration of
`ProcessFaultTree` itself is translated from the source over them. -/
structure Phases where
  phase1 : PState → PState
  phase2 : PState → PState
  phase3 : PState → PState
  phase4 : PState → PState
  phase5 : PState → PState

/-- The phase labels of `ProcessFaultTree`. -/
inductive Phase where
  | one
  | two
  | three
  | four
  | five
  deriving DecidableEq, Repr

/-- Tail of `ProcessFaultTree` from Phase V on: run Phase V, then the
final cleanup `CheckRootGate` call.  The trace records each executed
phase with the root state it produced. -/
def pftFromFive (ph : Phases) (st : PState) (tr : List (Phase × State)) :
    PState × List (Phase × State) :=
  let st5 := ph.phase5 st
  let tr5 := tr ++ [(Phase.five, st5.root.state)]
  ((checkRootGate st5).2, tr5)

/-- Tail of `ProcessFaultTree` from the Phase IV guard on: Phase IV runs
only for non-coherent graphs, followed by a root check that stops
processing on collapse. -/
def pftFromFour (ph : Phases) (st : PState) (tr : List (Phase × State)) :
    PState × List (Phase × State) :=
  if !st.coherentFlag then
    let st4 := ph.phase4 st
    let tr4 := tr ++ [(Phase.four, st4.root.state)]
    let c4 := checkRootGate st4
    if c4.1 then (c4.2, tr4) else pftFromFive ph c4.2 tr4
  else pftFromFive ph st tr

/-- Tail of `ProcessFaultTree` from the Phase III guard on: Phase III
runs only when the graph is not flagged normal, after which the flag is
set and the root is checked, stopping on collapse. -/
def pftFromThree (ph : Phases) (st : PState) (tr : List (Phase × State)) :
    PState × List (Phase × State) :=
  if !st.normalFlag then
    let st3 := ph.phase3 st
    let tr3 := tr ++ [(Phase.three, st3.root.state)]
    let c3 := checkRootGate { st3 with normalFlag := true }
    if c3.1 then (c3.2, tr3) else pftFromFour ph c3.2 tr3
  else pftFromFour ph st tr

/-- Translation of the orchestration of
`Preprocessor::ProcessFaultTree`: Phase I, root check, Phase II, root
check, then the conditional Phases III and IV with their checks, and
Phase V with the final cleanup check.  The returned trace records the
executed phases in order together with the root state each produced. -/
def processFaultTree (ph : Phases) (st : PState) :
    PState × List (Phase × State) :=
  let st1 := ph.phase1 st
  let tr1 := [(Phase.one, st1.root.state)]
  let c1 := checkRootGate st1
  if c1.1 then (c1.2, tr1)
  else
    let st2 := ph.phase2 c1.2
    let tr2 := tr1 ++ [(Phase.two, st2.root.state)]
    let c2 := checkRootGate st2
    if c2.1 then (c2.2, tr2) else pftFromThree ph c2.2 tr2

/-- A phase trace stops early: every entry followed by another entry
left the root in the Normal state; equivalently, as soon as an executed
phase collapses the root to a constant, no later phase appears. -/
def earlyStop : List (Phase × State) → Bool
  | [] => true
  | [_] => true
  | e :: f :: rest => decide (e.2 = kNormalState) && earlyStop (f :: rest)

/-- A `false` verdict of `CheckRootGate` requires a Normal root. -/
theorem checkRootGate_false (st : PState)
    (h : (checkRootGate st).1 = false) : st.root.state = kNormalState := by
  by_contra hs
  have ht : (checkRootGate st).1 = true := by
    rw [checkRootGate, if_pos hs]
    split <;> rfl
  rw [h] at ht
  exact Bool.false_ne_true ht

/-- `CheckRootGate` never modifies the graph's `normal_` flag. -/
theorem checkRootGate_normalFlag (st : PState) :
    ((checkRootGate st).2).normalFlag = st.normalFlag := by
  rw [checkRootGate]
  split
  · split <;> rfl
  · split
    · split
      · rfl
      · split <;> rfl
    · rfl

/-- `CheckRootGate` never modifies the graph's `coherent_` flag. -/
theorem checkRootGate_coherentFlag (st : PState) :
    ((checkRootGate st).2).coherentFlag = st.coherentFlag := by
  rw [checkRootGate]
  split
  · split <;> rfl
  · split
    · split
      · rfl
      · split <;> rfl
    · rfl

/-- All entries of a phase trace left the root Normal. -/
def allNormal (tr : List (Phase × State)) : Bool :=
  tr.all fun e => decide (e.2 = kNormalState)

theorem earlyStop_append_single :
    ∀ (tr : List (Phase × State)) (e : Phase × State),
      allNormal tr = true → earlyStop (tr ++ [e]) = true := by
  intro tr
  induction tr with
  | nil => intro e h; rfl
  | cons x rest ih =>
      intro e h
      rw [allNormal, List.all_cons, Bool.and_eq_true] at h
      obtain ⟨hx, hrest⟩ := h
      cases rest with
      | nil => simp [earlyStop, hx]
      | cons y t =>
          rw [List.cons_append, List.cons_append, earlyStop, hx,
            Bool.true_and]
          have := ih e hrest
          rw [List.cons_append] at this
          exact this

theorem pftFromFive_earlyStop (ph : Phases) (st : PState)
    (tr : List (Phase × State)) (h : allNormal tr = true) :
    earlyStop (pftFromFive ph st tr).2 = true :=
  earlyStop_append_single tr _ h

theorem pftFromFour_earlyStop (ph : Phases) (st : PState)
    (tr : List (Phase × State)) (h : allNormal tr = true) :
    earlyStop (pftFromFour ph st tr).2 = true := by
  simp only [pftFromFour]
  split
  · split
    · exact earlyStop_append_single _ _ h
    · rename_i hb
      apply pftFromFive_earlyStop
      rw [allNormal, List.all_append, Bool.and_eq_true]
      refine ⟨h, ?_⟩
      have hs := checkRootGate_false (ph.phase4 st)
        (Bool.eq_false_iff.mpr hb)
      simp [hs]
  · exact pftFromFive_earlyStop _ _ _ h

theorem pftFromThree_earlyStop (ph : Phases) (st : PState)
    (tr : List (Phase × State)) (h : allNormal tr = true) :
    earlyStop (pftFromThree ph st tr).2 = true := by
  simp only [pftFromThree]
  split
  · split
    · exact earlyStop_append_single _ _ h
    · rename_i hb
      apply pftFromFour_earlyStop
      rw [allNormal, List.all_append, Bool.and_eq_true]
      refine ⟨h, ?_⟩
      have hs := checkRootGate_false { ph.phase3 st with normalFlag := true }
        (Bool.eq_false_iff.mpr hb)
      simp [show ({ ph.phase3 st with normalFlag := true } : PState).root
              = (ph.phase3 st).root from rfl] at hs
      simp [hs]
  · exact pftFromFour_earlyStop _ _ _ h

/-- C5: whichever abstract behaviour the five phases have, the
orchestration of `ProcessFaultTree` stops as soon as a phase leaves the
root collapsed to a constant (state not Normal): in the executed-phase
trace, every phase entry that is followed by a later phase left the root
in the Normal state, so a phase after which the root is constant is the
last phase executed. -/
theorem C5_collapse_stops_processing (ph : Phases) (st : PState) :
    earlyStop (processFaultTree ph st).2 = true := by
  simp only [processFaultTree]
  split
  · rfl
  · rename_i hb1
    have hs1 := checkRootGate_false (ph.phase1 st) (Bool.eq_false_iff.mpr hb1)
    split
    · simp [hs1, earlyStop]
    · rename_i hb2
      have hs2 := checkRootGate_false _ (Bool.eq_false_iff.mpr hb2)
      apply pftFromThree_earlyStop
      rw [allNormal]
      simp [hs1, hs2]

theorem pftFromFive_no_three (ph : Phases) (st : PState)
    (tr : List (Phase × State))
    (h : Phase.three ∉ tr.map Prod.fst) :
    Phase.three ∉ (pftFromFive ph st tr).2.map Prod.fst := by
  simp only [pftFromFive]
  simp only [List.map_append, List.map_cons, List.map_nil,
    List.mem_append, List.mem_cons, List.not_mem_nil]
  rintro (hmem | hmem)
  · exact h hmem
  · rcases hmem with hmem | hmem
    · exact Phase.noConfusion hmem
    · exact hmem.elim

theorem pftFromFour_no_three (ph : Phases) (st : PState)
    (tr : List (Phase × State))
    (h : Phase.three ∉ tr.map Prod.fst) :
    Phase.three ∉ (pftFromFour ph st tr).2.map Prod.fst := by
  simp only [pftFromFour]
  have hfour : Phase.three ∉ (tr ++ [(Phase.four,
      (ph.phase4 st).root.state)]).map Prod.fst := by
    simp only [List.map_append, List.map_cons, List.map_nil,
      List.mem_append, List.mem_cons, List.not_mem_nil]
    rintro (hmem | hmem)
    · exact h hmem
    · rcases hmem with hmem | hmem
      · exact Phase.noConfusion hmem
      · exact hmem.elim
  split
  · split
    · exact hfour
    · exact pftFromFive_no_three _ _ _ hfour
  · exact pftFromFive_no_three _ _ _ h

/-- C3: when the graph arrives at the Phase III guard already flagged
normal (`normal_` true), `ProcessFaultTree` never executes Phase III,
the only phase performing full normalization; the hypotheses state that
Phases I and II do not modify the flag, as in the source. -/
theorem C3_phase_three_skipped (ph : Phases) (st : PState)
    (h1 : ∀ s, (ph.phase1 s).normalFlag = s.normalFlag)
    (h2 : ∀ s, (ph.phase2 s).normalFlag = s.normalFlag)
    (hn : st.normalFlag = true) :
    Phase.three ∉ (processFaultTree ph st).2.map Prod.fst := by
  simp only [processFaultTree]
  split
  · simp
  · split
    · simp
    · have hflag : ((checkRootGate (ph.phase2
          ((checkRootGate (ph.phase1 st)).2))).2).normalFlag = true := by
        rw [checkRootGate_normalFlag, h2, checkRootGate_normalFlag, h1, hn]
      simp only [pftFromThree, hflag]
      simp only [Bool.not_true, Bool.false_eq_true, if_false]
      apply pftFromFour_no_three
      simp

/-- Witness for C3 with identity phases on a normal-flagged non-coherent
state whose root is a two-variable XOR gate. -/
theorem C3_phase_three_skipped_witness :
    Phase.three ∉ (processFaultTree (Phases.mk id id id id id)
      (PState.mk (.mk kXorGate kNormalState 0 [] [1, 2]) 1 true false)
      ).2.map Prod.fst :=
  C3_phase_three_skipped (Phases.mk id id id id id)
    (PState.mk (.mk kXorGate kNormalState 0 [] [1, 2]) 1 true false)
    (fun _ => rfl) (fun _ => rfl) rfl

/-- The sub-algorithms invoked by `Preprocessor::PhaseTwo`, taken as
abstract transformations of the preprocessor state (the Boolean results
of `ProcessMultipleDefinitions` and of a coalescence round drive their
fixpoint loops); the orchestration of `PhaseTwo` itself is translated
from the source over them. -/
structure PhaseTwoSteps where
  multiDef : PState → Bool × PState
  detectModules : PState → PState
  mergeCommonArgs : PState → PState
  boolOpt : PState → PState
  decompose : PState → PState
  distributivity : PState → PState
  coalesce : PState → Bool × PState

/-- Labels of the sub-algorithms executed by `PhaseTwo`. -/
inductive P2Tag where
  | multiDef
  | detectModules
  | mergeCommonArgs
  | boolOpt
  | decompose
  | distributivity
  | coalesce
  deriving DecidableEq, Repr

/-- A `while (graph_changed)` fixpoint loop over a step returning
whether it changed the graph, bounded by fuel. -/
def loopWhileChanged (step : PState → Bool × PState) :
    Nat → PState → PState
  | 0, st => st
  | n + 1, st =>
      let r := step st
      if r.1 then loopWhileChanged step n r.2 else r.2

/-- Translation of the orchestration of `Preprocessor::PhaseTwo`:
multiple-definition fixpoint loop, root check, module detection, merging
of common arguments, Boolean optimization guarded by the graph's
coherence flag, root check, decomposition of common nodes, root check,
distributivity, coalescence fixpoint loop, root check, and module
detection again.  The trace records the sub-algorithms executed. -/
def phaseTwo (sp : PhaseTwoSteps) (fuel : Nat) (st : PState) :
    PState × List P2Tag :=
  let stm := loopWhileChanged sp.multiDef fuel st
  let trm := [P2Tag.multiDef]
  let c1 := checkRootGate stm
  if c1.1 then (c1.2, trm)
  else
    let stg := sp.mergeCommonArgs (sp.detectModules c1.2)
    let trg := trm ++ [P2Tag.detectModules, P2Tag.mergeCommonArgs]
    let stb := if stg.coherentFlag then sp.boolOpt stg else stg
    let trb := if stg.coherentFlag then trg ++ [P2Tag.boolOpt] else trg
    let c2 := checkRootGate stb
    if c2.1 then (c2.2, trb)
    else
      let std := sp.decompose c2.2
      let trd := trb ++ [P2Tag.decompose]
      let c3 := checkRootGate std
      if c3.1 then (c3.2, trd)
      else
        let stc := loopWhileChanged sp.coalesce fuel
          (sp.distributivity c3.2)
        let trc := trd ++ [P2Tag.distributivity, P2Tag.coalesce]
        let c4 := checkRootGate stc
        if c4.1 then (c4.2, trc)
        else (sp.detectModules c4.2, trc ++ [P2Tag.detectModules])

theorem loopWhileChanged_coherentFlag (step : PState → Bool × PState)
    (hstep : ∀ s, ((step s).2).coherentFlag = s.coherentFlag) :
    ∀ (n : Nat) (st : PState),
      (loopWhileChanged step n st).coherentFlag = st.coherentFlag := by
  intro n
  induction n with
  | zero => intro st; rfl
  | succ n ih =>
      intro st
      simp only [loopWhileChanged]
      split
      · rw [ih, hstep]
      · exact hstep st

/-- C9: Boolean optimization runs only on coherent graphs: whatever the
other sub-algorithms do (provided, as in the source, they do not touch
the graph's `coherent_` flag), `PhaseTwo` on a non-coherent state never
invokes `BooleanOptimization`. -/
theorem C9_boolean_optimization_needs_coherent (sp : PhaseTwoSteps)
    (fuel : Nat) (st : PState)
    (hm : ∀ s, ((sp.multiDef s).2).coherentFlag = s.coherentFlag)
    (hd : ∀ s, (sp.detectModules s).coherentFlag = s.coherentFlag)
    (hg : ∀ s, (sp.mergeCommonArgs s).coherentFlag = s.coherentFlag)
    (hc : st.coherentFlag = false) :
    P2Tag.boolOpt ∉ (phaseTwo sp fuel st).2 := by
  have hflag : (sp.mergeCommonArgs (sp.detectModules
      ((checkRootGate (loopWhileChanged sp.multiDef fuel st)).2)
      )).coherentFlag = false := by
    rw [hg, hd, checkRootGate_coherentFlag,
      loopWhileChanged_coherentFlag sp.multiDef hm fuel st, hc]
  simp only [phaseTwo]
  split
  · simp
  · rw [hflag]
    simp only [Bool.false_eq_true, if_false]
    split
    · simp
    · split
      · simp
      · split <;> simp

/-- Witness for C9 with no-op sub-algorithms on a non-coherent state. -/
theorem C9_boolean_optimization_needs_coherent_witness :
    P2Tag.boolOpt ∉ (phaseTwo
      (PhaseTwoSteps.mk (fun s => (false, s)) id id id id id
        (fun s => (false, s))) 1
      (PState.mk (.mk kOrGate kNormalState 0 [] [1, 2]) 1 false false)
      ).2 :=
  C9_boolean_optimization_needs_coherent
    (PhaseTwoSteps.mk (fun s => (false, s)) id id id id id
      (fun s => (false, s))) 1
    (PState.mk (.mk kOrGate kNormalState 0 [] [1, 2]) 1 false false)
    (fun _ => rfl) (fun _ => rfl) (fun _ => rfl) rfl

end scram
